import Mathlib

/-!
Verification of the Dignitate video render orchestration engine
(`remotion-video/src/render.ts` and `remotion-video/src/Video/Subtitles.tsx`).

The TypeScript code is shallowly embedded: JavaScript strings become `String`
manipulated through their character lists (so that everything is executable and
kernel-reducible), JavaScript numbers become `ℚ` (exact rationals; the code
performs no precision-critical float work), `Math.round`/`Math.floor` become
`⌊·+1/2⌋` / `⌊·⌋` on `ℚ`, fallible code returns `Except`, and the shared-cursor
worker pool of `resolveClipUrlsFromFal` becomes a small-step transition
relation over an explicit executor state.
-/

namespace Dignitate

/-! ### JavaScript string primitives, embedded on character lists -/

/-- `\s` character class test (ASCII relevant subset). -/
def wsChar (c : Char) : Bool := c.isWhitespace

/-- Strip leading and trailing whitespace from a character list
(JS `String.prototype.trim`). -/
def trimChars (cs : List Char) : List Char :=
  ((cs.dropWhile wsChar).reverse.dropWhile wsChar).reverse

/-- `clean` from `render.ts`: `String(s ?? "").trim()` (on an actual string). -/
def clean (s : String) : String := String.mk (trimChars s.data)

/-- JS `String.prototype.toLowerCase` (ASCII). -/
def lowerStr (s : String) : String := String.mk (s.data.map Char.toLower)

/-- JS `String.prototype.toUpperCase` (ASCII). -/
def upperStr (s : String) : String := String.mk (s.data.map Char.toUpper)

/-- JS `hay.includes(needle)` (substring test). -/
def jsIncludes (hay needle : String) : Bool := decide (needle.data <:+: hay.data)

/-- JS `a || b` on strings: empty string is falsy. -/
def jsOrStr (a b : String) : String := if a = "" then b else a

/-- JS `a || b` on (non-NaN) numbers: `0` is falsy. -/
def jsOrQ (a b : ℚ) : ℚ := if a = 0 then b else a

/-- `appendPrompt` from `render.ts`: append `tail` to `base` with a `". "`
separator unless the trimmed base already contains the trimmed tail as a
case-insensitive substring. -/
def appendPrompt (base tail : String) : String :=
  let b := clean base
  let t := clean tail
  if b = "" then t
  else if t = "" then b
  else if jsIncludes (lowerStr b) (lowerStr t) then b
  else b ++ ". " ++ t

/-! ### Whitespace splitting and collapsing -/

/-- Worker for `splitWS`: `acc` holds the current in-progress token reversed. -/
def splitWSGo (acc : List Char) : List Char → List String
  | [] => if acc.isEmpty then [] else [String.mk acc.reverse]
  | c :: cs =>
    if wsChar c then
      if acc.isEmpty then splitWSGo [] cs
      else String.mk acc.reverse :: splitWSGo [] cs
    else splitWSGo (c :: acc) cs

/-- JS `s.split(/\s+/).filter(Boolean)`: the whitespace-delimited tokens of
`s`, with empty tokens discarded. -/
def splitWS (s : String) : List String := splitWSGo [] s.data

/-- Worker for whitespace collapsing: the flag records whether the previous
input character belonged to a whitespace run whose single `' '` replacement
has already been emitted. -/
def collapseGo : Bool → List Char → List Char
  | _, [] => []
  | prevWS, c :: cs =>
    if wsChar c then
      if prevWS then collapseGo true cs
      else ' ' :: collapseGo true cs
    else c :: collapseGo false cs

/-- JS `s.replace(/\s+/g, " ")`: every maximal whitespace run becomes one space. -/
def collapseWS (cs : List Char) : List Char := collapseGo false cs

/-- `normalizeWord` from `Subtitles.tsx`:
`String(word || "").trim()` followed by `.replace(/\s+/g, " ")`. -/
def normalizeWord (s : String) : String := String.mk (collapseWS (trimChars s.data))

/-- `estimateLineLen` from `Subtitles.tsx`:
`words.join(" ").replace(/\s+/g, " ").trim().length`. -/
def joinSpace : List String → List Char
  | [] => []
  | [w] => w.data
  | w :: rest => w.data ++ ' ' :: joinSpace rest

/-- Visible-character estimate of a prospective caption line. -/
def estimateLineLen (ws : List String) : ℕ := (trimChars (collapseWS (joinSpace ws))).length

/-! ### Word timeline (`buildWordTimeline`, `Subtitles.tsx`) -/

/-- `SceneData` from `Video/types.ts` (the fields used by the subtitle code). -/
structure SceneData where
  narration : String
  visualPrompt : String
  type : String
  duration : ℚ
  index : ℤ
deriving DecidableEq

/-- JS `/[.!?]$/.test(word)`. -/
def endsWithStrongPause (w : String) : Bool :=
  match w.data.getLast? with
  | some c => c = '.' || c = '!' || c = '?'
  | none => false

/-- JS `/[,;:]$/.test(word)`. -/
def endsWithSoftPause (w : String) : Bool :=
  match w.data.getLast? with
  | some c => c = ',' || c = ';' || c = ':'
  | none => false

/-- JS `word.replace(/[^a-z0-9]/gi, "").length >= 9`. -/
def isLongWord (w : String) : Bool :=
  decide (9 ≤ (w.data.filter (fun c => c.isAlpha || c.isDigit)).length)

/-- The per-word rhythm weight computed inside `buildWordTimeline`. -/
def wordWeight (w : String) : ℚ :=
  1 + (if endsWithSoftPause w then 0.35 else 0)
    + (if endsWithStrongPause w then 0.8 else 0)
    + (if isLongWord w then 0.15 else 0)

/-- Whether a word's final character is one of the given marks (the spec's
"ends in a ... mark" phrasing). -/
def specEndsIn (marks : List Char) (w : String) : Bool :=
  match w.data.getLast? with
  | some c => decide (c ∈ marks)
  | none => false

/-- The spec's wording of the weight rule (§4.5 step 2), written independently
of the source for the refinement comparison in C4: base 1.0, +0.35 for a
trailing soft-pause mark in `,;:`, +0.8 for a trailing strong-pause mark in
`.!?`, +0.15 when the alphanumeric-stripped length is at least 9. -/
def specWeight (w : String) : ℚ :=
  1 + (if specEndsIn [',', ';', ':'] w then 0.35 else 0)
    + (if specEndsIn ['.', '!', '?'] w then 0.8 else 0)
    + (if 9 ≤ (w.data.filter (fun c => c.isAlpha || c.isDigit)).length then 0.15 else 0)

/-- All narration tokens, concatenated across scenes in order
(`scene.narration.split(/\s+/).filter(Boolean)` pushed scene by scene). -/
def tokenizeScenes (scenes : List SceneData) : List String :=
  (scenes.map (fun s => splitWS s.narration)).flatten

/-- JS `Math.round` on the embedded exact rationals (half rounds up). -/
def jsRound (q : ℚ) : ℤ := ⌊q + 1/2⌋

/-- `WordEntry` from `Subtitles.tsx`. -/
structure WordEntry where
  word : String
  startFrame : ℤ
  endFrame : ℤ
deriving DecidableEq

/-- The `allWords.map` loop of `buildWordTimeline`: `t` is `currentTime`,
`W` the precomputed `totalWeight`. -/
def bwGo (W D fps : ℚ) : List String → ℚ → List WordEntry
  | [], _ => []
  | w :: rest, t =>
    let weight := jsOrQ (wordWeight w) 1
    let d := if 0 < W then weight / W * D else 0
    ⟨w, jsRound (t * fps), jsRound ((t + d) * fps)⟩ :: bwGo W D fps rest (t + d)

/-- `buildWordTimeline` from `Subtitles.tsx`. -/
def buildWordTimeline (scenes : List SceneData) (totalDurationSec fps : ℚ) : List WordEntry :=
  let allWords := tokenizeScenes scenes
  if allWords.isEmpty then []
  else bwGo ((allWords.map wordWeight).sum) totalDurationSec fps allWords 0

/-! ### Caption grouping (`buildCaptionGroups`, `Subtitles.tsx`) -/

/-- `CaptionGroup` from `Subtitles.tsx`. -/
structure CaptionGroup where
  words : List WordEntry
  startFrame : ℤ
  endFrame : ℤ
deriving DecidableEq

/-- Placeholder entry used only to express `cur[0]` / `cur[cur.length - 1]`
on a list known to be non-empty. -/
def dfltEntry : WordEntry := ⟨"", 0, 0⟩

/-- The `flush` closure of `buildCaptionGroups`: emit the current run
(if non-empty) as a group spanning its first start to its last end. -/
def flushGroup (cur : List WordEntry) (groups : List CaptionGroup) : List CaptionGroup :=
  if cur.isEmpty then groups
  else groups ++ [⟨cur, (cur.headD dfltEntry).startFrame, (cur.getLastD dfltEntry).endFrame⟩]

/-- A word entry with its word whitespace-normalized
(`{ ...entry, word }` as pushed into `cur`). -/
def normEntry (e : WordEntry) : WordEntry := { e with word := normalizeWord e.word }

/-- The pre-push flush test of `buildCaptionGroups`:
`cur.length && (wouldExceedWords || wouldExceedChars)`. -/
def bcgDoFlush (mW mC : ℤ) (cur : List WordEntry) (e : WordEntry) : Bool :=
  !cur.isEmpty &&
    (decide (mW < (cur.length : ℤ) + 1) ||
     decide (mC < (estimateLineLen
       ((cur.map (fun w => normalizeWord w.word)) ++ [normalizeWord e.word]) : ℤ)))

/-- The groups accumulator after the pre-push flush test. -/
def bcgGroups1 (mW mC : ℤ) (groups : List CaptionGroup) (cur : List WordEntry)
    (e : WordEntry) : List CaptionGroup :=
  if bcgDoFlush mW mC cur e then flushGroup cur groups else groups

/-- The current run after the pre-push flush test and the push itself. -/
def bcgCur1 (mW mC : ℤ) (cur : List WordEntry) (e : WordEntry) : List WordEntry :=
  (if bcgDoFlush mW mC cur e then [] else cur) ++ [normEntry e]

/-- The main loop of `buildCaptionGroups` over the timeline, with the emitted
groups and current run as accumulators. `mW`/`mC` are the clamped limits. -/
def bcgGo (mW mC : ℤ) : List CaptionGroup → List WordEntry → List WordEntry → List CaptionGroup
  | groups, cur, [] => flushGroup cur groups
  | groups, cur, e :: rest =>
    let word := normalizeWord e.word
    let groups1 := bcgGroups1 mW mC groups cur e
    let cur1 := bcgCur1 mW mC cur e
    if endsWithStrongPause word then
      bcgGo mW mC (flushGroup cur1 groups1) [] rest
    else if endsWithSoftPause word && decide (max 3 ⌊(mW : ℚ) * 0.6⌋ ≤ (cur1.length : ℤ)) then
      bcgGo mW mC (flushGroup cur1 groups1) [] rest
    else
      bcgGo mW mC groups1 cur1 rest

/-- Every word stored in the run has already been normalized. -/
def NormFixed (cur : List WordEntry) : Prop :=
  ∀ e ∈ cur, normalizeWord e.word = e.word

/-- The guarantees carried by every emitted caption group: non-empty, within
the word limit, and within the character limit whenever it has at least two
words. -/
def GroupOk (mW mC : ℤ) (g : CaptionGroup) : Prop :=
  g.words ≠ [] ∧ (g.words.length : ℤ) ≤ mW ∧
    (2 ≤ g.words.length →
      (estimateLineLen (g.words.map (fun e => e.word)) : ℤ) ≤ mC)

/-- The loop invariant on the current run. -/
def CurOk (mW mC : ℤ) (cur : List WordEntry) : Prop :=
  NormFixed cur ∧ (cur.length : ℤ) ≤ mW ∧
    (2 ≤ cur.length →
      (estimateLineLen (cur.map (fun e => e.word)) : ℤ) ≤ mC)

/-- `buildCaptionGroups` from `Subtitles.tsx` (limits are clamped exactly as in
the source: `Math.max(1, ...)` / `Math.max(10, ...)`). -/
def buildCaptionGroups (timeline : List WordEntry) (maxWords maxChars : ℤ) : List CaptionGroup :=
  bcgGo (max 1 maxWords) (max 10 maxChars) [] [] timeline

/-! ### URL shape tests (`render.ts`) -/

/-- JS `s.endsWith(suffix)`. -/
def endsWithStr (s suffix : String) : Bool := suffix.data.isSuffixOf s.data

/-- `looksLikeUrl` from `render.ts`: `/^https?:\/\//i.test(clean(u))`. -/
def looksLikeUrl (u : String) : Bool :=
  let s := (lowerStr (clean u)).data
  "http://".data.isPrefixOf s || "https://".data.isPrefixOf s

/-- `looksLikeVideoUrl` from `render.ts`. -/
def looksLikeVideoUrl (u : String) : Bool :=
  let s := clean u
  if !looksLikeUrl s then false
  else
    let lower := (lowerStr s).data
    let bare := String.mk ((lower.takeWhile (fun c => c ≠ '?')).takeWhile (fun c => c ≠ '#'))
    if endsWithStr bare ".mp4" || endsWithStr bare ".mov" || endsWithStr bare ".webm" || endsWithStr bare ".m3u8" then true
    else jsIncludes (String.mk lower) "fal.media/files/"

/-! ### Image-provider fallback chain (`generateClipsFromScenes`, `render.ts`) -/

/-- JS `/(401|403)|Cannot access application/i.test(msg)`. -/
def isNanoFallbackEligible (msg : String) : Bool :=
  jsIncludes msg "401" || jsIncludes msg "403" ||
    jsIncludes (lowerStr msg) "cannot access application"

/-- Label of the primary image model in `nanoModels`. -/
def nanoProLabel : String := "nano-banana-pro"

/-- The ordered provider labels of `nanoModels`. -/
def nanoModelLabels : List String := ["nano-banana-pro", "nano-banana"]

/-- The `for (const m of nanoModels)` loop: each provider submission/resolution
is summarised by its outcome (`ok` artifact URL, or the thrown error message).
The `continue` branch fires only for the primary label with a fallback-eligible
message; all other errors rethrow immediately. -/
def providerLoop (outcome : String → Except String String) :
    List String → String → Except String String
  | [], lastErr => Except.error ("Failed to generate scene start frame. Last error: " ++ lastErr)
  | label :: rest, _ =>
    match outcome label with
    | Except.ok url => Except.ok url
    | Except.error msg =>
      if label == nanoProLabel && isNanoFallbackEligible msg then providerLoop outcome rest msg
      else Except.error msg

/-- Per-scene start-frame generation over the provider fallback chain. -/
def generateSceneImage (outcome : String → Except String String) : Except String String :=
  providerLoop outcome nanoModelLabels ""

/-! ### Clip polling (`resolveFalClipUrl`, `render.ts`) -/

/-- The fields of a fal status response that the poller reads. Absent or
non-string fields are the empty string (indistinguishable under JS `||`). -/
structure StatusJson where
  status : String
  dataStatus : String
  requestStatus : String
deriving DecidableEq

/-- `clean(statusJson?.status || statusJson?.data?.status ||
statusJson?.request_status || "").toUpperCase()`. -/
def extractStatus (j : StatusJson) : String :=
  upperStr (clean (jsOrStr j.status (jsOrStr j.dataStatus j.requestStatus)))

/-- The statuses the source treats as terminal failure. -/
def terminalStatuses : List String := ["FAILED", "ERROR", "CANCELLED"]

/-- Result of one body execution of the `while` loop in `resolveFalClipUrl`. -/
inductive PollOutcome where
  | resolved (url : String)
  | continuePolling
deriving DecidableEq

/-- The external interactions of one poll cycle: whether a status URL and a
response URL are available, the status fetch outcome, the result fetch outcome
(`ok v` carries `pickFirstVideoUrl(resultJson)`, possibly empty), and
`pickFirstVideoUrl(req)` for the original request object. -/
structure PollCycleInput where
  hasStatusUrl : Bool
  statusFetch : Except String StatusJson
  hasResponseUrl : Bool
  resultFetch : Except String String
  reqDirect : String

/-- One body execution of the polling loop. The first component records
whether the result endpoint was queried during this cycle.

The source's `throw` on a terminal status sits inside the `try` whose `catch`
merely logs, so a terminal status leaves no trace in control flow beyond the
value retained in `status` (which then skips the result fetch for the cycle). -/
def clipPollIteration (p : PollCycleInput) : Bool × PollOutcome :=
  let status :=
    if p.hasStatusUrl then
      match p.statusFetch with
      | Except.ok j => extractStatus j
      | Except.error _ => ""
    else ""
  if p.hasResponseUrl && (status == "" || status == "COMPLETED") then
    match p.resultFetch with
    | Except.ok extracted =>
      let direct := jsOrStr extracted p.reqDirect
      if direct == "" then (true, PollOutcome.continuePolling)
      else (true, PollOutcome.resolved direct)
    | Except.error _ => (true, PollOutcome.continuePolling)
  else (false, PollOutcome.continuePolling)

/-- The polling loop of `resolveFalClipUrl`: the trace lists the poll cycles
that fit before the wall-clock deadline; exhausting it is the timeout. -/
def resolveFalClipUrlLoop (requestId : String) : List PollCycleInput → Except String String
  | [] => Except.error ("Timed out waiting for fal clip (requestId=" ++ jsOrStr requestId "n/a" ++ ")")
  | p :: rest =>
    match (clipPollIteration p).2 with
    | PollOutcome.resolved url => Except.ok url
    | PollOutcome.continuePolling => resolveFalClipUrlLoop requestId rest

/-! ### Bounded-concurrency executor (`resolveClipUrlsFromFal`, `render.ts`) -/

/-- A worker of the shared-cursor pool: waiting to grab an index, resolving
request `i`, or returned. -/
inductive WorkerSt where
  | free
  | busy (i : ℕ)
  | finished
deriving DecidableEq

/-- The shared state of `resolveClipUrlsFromFal`'s worker pool. -/
structure ExecState where
  cursor : ℕ
  workers : List WorkerSt
  results : List (Option String)
deriving DecidableEq

/-- `cursor = 0`, `Math.min(concurrency, reqs.length)` idle workers, and the
`new Array(reqs.length)` results array with every slot still unset. -/
def initState (C N : ℕ) : ExecState :=
  ⟨0, List.replicate (min C N) WorkerSt.free, List.replicate N none⟩

/-- Atomic steps of the pool. `grab` is the synchronous `const i = cursor++`
followed by the bounds check (the worker returns when `i ≥ N`); `complete` is
the resumption after `await resolveFalClipUrl(reqs[i], ...)` writing
`results[i]`. `resolve i` is the URL request `i` resolves to (the claim's
hypothesis that every request resolves within the timeout). -/
inductive Step (resolve : ℕ → String) (N : ℕ) : ExecState → ExecState → Prop
  | grab (s : ExecState) (k : ℕ) (hk : s.workers[k]? = some WorkerSt.free) :
      Step resolve N s
        ⟨s.cursor + 1,
         s.workers.set k (if s.cursor < N then WorkerSt.busy s.cursor else WorkerSt.finished),
         s.results⟩
  | complete (s : ExecState) (k i : ℕ) (hk : s.workers[k]? = some (WorkerSt.busy i)) :
      Step resolve N s
        ⟨s.cursor, s.workers.set k WorkerSt.free, s.results.set i (some (resolve i))⟩

/-- States the pool can reach from the initial state under any interleaving. -/
def Reachable (resolve : ℕ → String) (C N : ℕ) (s : ExecState) : Prop :=
  Relation.ReflTransGen (Step resolve N) (initState C N) s

/-- `Promise.all` has resolved: every worker has returned. -/
def TerminalExec (s : ExecState) : Prop := ∀ w ∈ s.workers, w = WorkerSt.finished

/-- Whether a worker currently holds a request. -/
def isBusyW : WorkerSt → Bool
  | WorkerSt.busy _ => true
  | _ => false

/-- Number of requests being resolved at once. -/
def busyCount (s : ExecState) : ℕ := (s.workers.filter isBusyW).length

/-- The tail of `resolveClipUrlsFromFal`: filter the settled slots through
`looksLikeVideoUrl` and fail unless every request produced one. -/
def finalOutput (N : ℕ) (results : List (Option String)) : Except String (List String) :=
  let resolved := (results.filterMap id).filter looksLikeVideoUrl
  if resolved.length = N then Except.ok resolved
  else Except.error "Failed to resolve all clip request URLs"

/-- Inductive invariant of the worker pool: sizes are fixed, every settled
slot holds its own request's URL, every claimed index is in range, every
handed-out index below the batch size is settled or actively held, and a
returned worker implies the cursor has passed the batch. -/
def ExecInv (resolve : ℕ → String) (C N : ℕ) (s : ExecState) : Prop :=
  s.results.length = N ∧
  s.workers.length = min C N ∧
  (∀ (i : ℕ) (v : String), s.results[i]? = some (some v) → v = resolve i) ∧
  (∀ (k i : ℕ), s.workers[k]? = some (WorkerSt.busy i) → i < s.cursor ∧ i < N) ∧
  (∀ j : ℕ, j < s.cursor → j < N →
    s.results[j]? = some (some (resolve j)) ∨ ∃ k : ℕ, s.workers[k]? = some (WorkerSt.busy j)) ∧
  ((∃ k : ℕ, s.workers[k]? = some WorkerSt.finished) → N ≤ s.cursor)

/-! ### Orchestrator timeline arithmetic (`main`, `render.ts`) -/

/-- `sceneTimelineSeconds`: sum of the declared positive scene durations
(`Number.isFinite(d) && d > 0 ? d : 0`). -/
def sceneTimelineSeconds (durations : List ℚ) : ℚ :=
  (durations.map (fun d => if 0 < d then d else 0)).sum

/-- `timelineSeconds` as computed in `main` (including the talking-head floor). -/
def computeTimelineSeconds (durations : List ℚ) (audioDuration : ℚ) (numClips : ℕ)
    (talkingHeadMode : Bool) : ℚ :=
  let base :=
    if 0 < sceneTimelineSeconds durations then sceneTimelineSeconds durations
    else if 0 < audioDuration then audioDuration else (numClips : ℚ) * 5
  if talkingHeadMode then max 30 base else base

/-- `subtitlesSeconds` as computed in `main`. -/
def computeSubtitlesSeconds (audioDuration timelineSeconds : ℚ) : ℚ :=
  if 0 < audioDuration then min audioDuration timelineSeconds else timelineSeconds

/-- `sceneBasedDuration`: sum of scene durations with absent or non-positive
durations defaulted to 5 (`Number.isFinite(d) && d > 0 ? d : 5`). -/
def sceneBasedDuration (durations : List ℚ) : ℚ :=
  (durations.map (fun d => if 0 < d then d else 5)).sum

/-- The silent-render duration of `main`:
`Math.max(6, sceneBasedDuration || remoteClipUrls.length * 5 || 15)`. -/
def syntheticAudioDuration (durations : List ℚ) (numClips : ℕ) : ℚ :=
  max 6 (jsOrQ (sceneBasedDuration durations) (jsOrQ ((numClips : ℚ) * 5) 15))

/-- C7's wording of the synthetic duration (spec §4.4(c)), written
independently of the source: the defaulted scene-duration sum floored at 6. -/
def specSyntheticDuration (durations : List ℚ) : ℚ :=
  max 6 ((durations.map (fun d => if 0 < d then d else 5)).sum)

/-! ### Talking-head detection and rewrite (`render.ts`) -/

/-- A render-input scene as `main` consumes it (`videoPrompt` and
`sceneImagePrompt` stand for the optional extra fields carried along). -/
structure SceneR where
  narration : String
  visualPrompt : String
  type : String
  duration : ℚ
  index : ℤ
  videoPrompt : String
  sceneImagePrompt : String
deriving DecidableEq

/-- The parsed render input fields consulted by `isTalkingHeadInput`. -/
structure RenderInputM where
  videoMode : String
  targetDurationSec : ℚ
  talkingHeadSingleImage : Bool
  scenes : List SceneR
deriving DecidableEq

/-- `isTalkingHeadInput` from `render.ts`. -/
def isTalkingHeadInput (input : RenderInputM) (scenes : List SceneR) : Bool :=
  let mode := lowerStr (clean input.videoMode)
  let singleScene := scenes.length == 1
  let singleLongScene :=
    scenes.length == 1 &&
      decide (25 ≤ (match scenes.head? with | some s => s.duration | none => 0))
  mode == "talking_head" || decide ((30 : ℚ) ≤ input.targetDurationSec) ||
    input.talkingHeadSingleImage || singleLongScene || singleScene

/-- The scene-list rewrite at the top of `main`: in talking-head mode a
non-empty scene list collapses to a single 30-second hook scene copied from
the original first scene. -/
def applyTalkingHeadRewrite (input : RenderInputM) : List SceneR :=
  if isTalkingHeadInput input input.scenes && !input.scenes.isEmpty then
    match input.scenes with
    | [] => []
    | s0 :: _ => [{ s0 with type := "hook", index := 0, duration := 30 }]
  else input.scenes

/-! ## Lemmas about trimming and whitespace collapsing -/

theorem head_dropWhile_ws (l : List Char) (c : Char) (r : List Char)
    (h : l.dropWhile wsChar = c :: r) : wsChar c = false := by
  induction l with
  | nil => simp at h
  | cons x xs ih =>
    rw [List.dropWhile_cons] at h
    by_cases hx : wsChar x = true
    · exact ih (by simpa [hx] using h)
    · simp [hx] at h
      rcases h with ⟨h1, _⟩
      simp [← h1]
      simpa using hx

theorem dropWhile_ws_eq_self (l : List Char)
    (h : ∀ c, l.head? = some c → wsChar c = false) : l.dropWhile wsChar = l := by
  cases l with
  | nil => rfl
  | cons x xs => rw [List.dropWhile_cons, h x rfl]; simp

theorem trimChars_head_not_ws (l : List Char) (c : Char) (r : List Char)
    (h : trimChars l = c :: r) : wsChar c = false := by
  unfold trimChars at h
  have hsuf : (l.dropWhile wsChar).reverse.dropWhile wsChar <:+ (l.dropWhile wsChar).reverse :=
    List.dropWhile_suffix wsChar
  have hpre : ((l.dropWhile wsChar).reverse.dropWhile wsChar).reverse <+: l.dropWhile wsChar := by
    apply List.reverse_suffix.mp
    simpa using hsuf
  rw [h] at hpre
  obtain ⟨t, ht⟩ := hpre
  exact head_dropWhile_ws l c (r ++ t) (by simpa using ht.symm)

theorem trimChars_getLast_not_ws (l : List Char) (c : Char)
    (h : (trimChars l).getLast? = some c) : wsChar c = false := by
  unfold trimChars at h
  rw [List.getLast?_reverse] at h
  obtain ⟨r, hr⟩ : ∃ r, (l.dropWhile wsChar).reverse.dropWhile wsChar = c :: r := by
    cases hd : (l.dropWhile wsChar).reverse.dropWhile wsChar with
    | nil => rw [hd] at h; simp at h
    | cons a b =>
      rw [hd] at h
      simp at h
      exact ⟨b, by rw [h]⟩
  exact head_dropWhile_ws (l.dropWhile wsChar).reverse c r hr

theorem trimChars_eq_self (l : List Char)
    (hh : ∀ c, l.head? = some c → wsChar c = false)
    (hl : ∀ c, l.getLast? = some c → wsChar c = false) : trimChars l = l := by
  unfold trimChars
  rw [dropWhile_ws_eq_self l hh]
  rw [dropWhile_ws_eq_self l.reverse (by intro c hc; exact hl c (by rwa [← List.getLast?_reverse l.reverse, List.reverse_reverse] at hc))]
  exact List.reverse_reverse l

theorem trimChars_idem (l : List Char) : trimChars (trimChars l) = trimChars l := by
  apply trimChars_eq_self
  · intro c hc
    cases ht : trimChars l with
    | nil => rw [ht] at hc; simp at hc
    | cons a r =>
      rw [ht] at hc
      simp at hc
      exact hc ▸ trimChars_head_not_ws l a r ht
  · intro c hc
    exact trimChars_getLast_not_ws l c hc

theorem collapseGo_cons_ws_true (x : Char) (xs : List Char) (hx : wsChar x = true) :
    collapseGo true (x :: xs) = collapseGo true xs := by
  simp [collapseGo, hx]

theorem collapseGo_cons_ws_false (x : Char) (xs : List Char) (hx : wsChar x = true) :
    collapseGo false (x :: xs) = ' ' :: collapseGo true xs := by
  simp [collapseGo, hx]

theorem collapseGo_cons_not_ws (b : Bool) (x : Char) (xs : List Char) (hx : wsChar x = false) :
    collapseGo b (x :: xs) = x :: collapseGo false xs := by
  simp [collapseGo, hx]

/-- Every whitespace character emitted by the collapser is a plain space. -/
theorem collapseGo_ws_space (l : List Char) : ∀ (b : Bool) (c : Char),
    c ∈ collapseGo b l → wsChar c = true → c = ' ' := by
  induction l with
  | nil => intro b c hc; simp [collapseGo] at hc
  | cons x xs ih =>
    intro b c hc hw
    by_cases hx : wsChar x = true
    · cases b with
      | true =>
        rw [collapseGo_cons_ws_true x xs hx] at hc
        exact ih true c hc hw
      | false =>
        rw [collapseGo_cons_ws_false x xs hx] at hc
        rcases List.mem_cons.mp hc with h1 | h2
        · exact h1
        · exact ih true c h2 hw
    · rw [collapseGo_cons_not_ws b x xs (by simpa using hx)] at hc
      rcases List.mem_cons.mp hc with h1 | h2
      · rw [h1] at hw; simp [hw] at hx
      · exact ih false c h2 hw

/-- With the `prevWS` flag set, the collapser never emits a leading space. -/
theorem collapseGo_true_head (l : List Char) (c : Char)
    (h : (collapseGo true l).head? = some c) : wsChar c = false := by
  induction l with
  | nil => simp [collapseGo] at h
  | cons x xs ih =>
    by_cases hx : wsChar x = true
    · rw [collapseGo_cons_ws_true x xs hx] at h
      exact ih h
    · rw [collapseGo_cons_not_ws true x xs (by simpa using hx)] at h
      simp at h
      rw [← h]
      simpa using hx

/-- The collapser never emits two adjacent whitespace characters. -/
theorem collapseGo_chain (l : List Char) : ∀ b : Bool,
    List.Chain' (fun a c => wsChar a = false ∨ wsChar c = false) (collapseGo b l) := by
  induction l with
  | nil => intro b; simp [collapseGo]
  | cons x xs ih =>
    intro b
    by_cases hx : wsChar x = true
    · cases b with
      | true => rw [collapseGo_cons_ws_true x xs hx]; exact ih true
      | false =>
        rw [collapseGo_cons_ws_false x xs hx]
        rw [List.chain'_cons']
        refine ⟨?_, ih true⟩
        intro y hy
        refine Or.inr (collapseGo_true_head xs y ?_)
        cases hc : (collapseGo true xs).head? with
        | none => rw [hc] at hy; simp at hy
        | some z => rw [hc] at hy; simp at hy; simp [hy]
    · rw [collapseGo_cons_not_ws b x xs (by simpa using hx)]
      rw [List.chain'_cons']
      refine ⟨?_, ih false⟩
      intro y _
      exact Or.inl (by simpa using hx)

/-- On input with a non-whitespace head the `prevWS` flag is irrelevant. -/
theorem collapseGo_true_eq_false (l : List Char)
    (h : ∀ c, l.head? = some c → wsChar c = false) :
    collapseGo true l = collapseGo false l := by
  cases l with
  | nil => rfl
  | cons x xs =>
    rw [collapseGo_cons_not_ws true x xs (h x rfl), collapseGo_cons_not_ws false x xs (h x rfl)]

/-- Already-collapsed character lists are fixed points of the collapser. -/
theorem collapseGo_fixed (l : List Char)
    (hch : List.Chain' (fun a c => wsChar a = false ∨ wsChar c = false) l)
    (hsp : ∀ c ∈ l, wsChar c = true → c = ' ') : collapseGo false l = l := by
  induction l with
  | nil => rfl
  | cons x xs ih =>
    rw [List.chain'_cons'] at hch
    by_cases hx : wsChar x = true
    · have hx' : x = ' ' := hsp x (by simp) hx
      have hhead : ∀ c, xs.head? = some c → wsChar c = false := by
        intro c hc
        have hmem : c ∈ xs.head? := by rw [hc]; rfl
        rcases hch.1 c hmem with h1 | h2
        · rw [hx] at h1; simp at h1
        · exact h2
      rw [collapseGo_cons_ws_false x xs hx]
      rw [collapseGo_true_eq_false xs hhead]
      rw [ih hch.2 (fun c hc hw => hsp c (by simp [hc]) hw)]
      rw [hx']
    · rw [collapseGo_cons_not_ws false x xs (by simpa using hx)]
      rw [ih hch.2 (fun c hc hw => hsp c (by simp [hc]) hw)]

/-- The collapser output is non-empty whenever the input has a
non-whitespace character. -/
theorem collapseGo_ne_nil (l : List Char) (c : Char) (hc : c ∈ l)
    (hw : wsChar c = false) : ∀ b, collapseGo b l ≠ [] := by
  induction l with
  | nil => simp at hc
  | cons x xs ih =>
    intro b
    by_cases hx : wsChar x = true
    · have h2 : c ∈ xs := by
        rcases List.mem_cons.mp hc with h1 | h2
        · rw [h1] at hw; simp [hw] at hx
        · exact h2
      cases b with
      | true => rw [collapseGo_cons_ws_true x xs hx]; exact ih h2 true
      | false => rw [collapseGo_cons_ws_false x xs hx]; simp
    · rw [collapseGo_cons_not_ws b x xs (by simpa using hx)]; simp

/-- A non-whitespace final character survives collapsing as the final
character. -/
theorem collapseGo_getLast (l : List Char) (c : Char) :
    ∀ b, l.getLast? = some c → wsChar c = false →
      (collapseGo b l).getLast? = some c := by
  induction l with
  | nil => intro b h _; simp at h
  | cons x xs ih =>
    intro b h hw
    cases xs with
    | nil =>
      simp at h
      subst h
      rw [collapseGo_cons_not_ws b x [] hw]
      rfl
    | cons y ys =>
      have hlast : (y :: ys).getLast? = some c := by
        rw [List.getLast?_cons_cons] at h; exact h
      have hne : ∀ b, collapseGo b (y :: ys) ≠ [] := by
        intro b
        refine collapseGo_ne_nil (y :: ys) c ?_ hw b
        exact List.mem_of_mem_getLast? (by rw [hlast]; rfl)
      by_cases hx : wsChar x = true
      · cases b with
        | true =>
          rw [collapseGo_cons_ws_true x (y :: ys) hx]
          exact ih true hlast hw
        | false =>
          rw [collapseGo_cons_ws_false x (y :: ys) hx]
          obtain ⟨z, zs, hz⟩ := List.exists_cons_of_ne_nil (hne true)
          rw [hz, List.getLast?_cons_cons, ← hz]
          exact ih true hlast hw
      · rw [collapseGo_cons_not_ws b x (y :: ys) (by simpa using hx)]
        obtain ⟨z, zs, hz⟩ := List.exists_cons_of_ne_nil (hne false)
        rw [hz, List.getLast?_cons_cons, ← hz]
        exact ih false hlast hw

/-- `normalizeWord` is idempotent. -/
theorem normalizeWord_idem (s : String) :
    normalizeWord (normalizeWord s) = normalizeWord s := by
  unfold normalizeWord collapseWS
  apply String.ext
  show collapseGo false (trimChars (collapseGo false (trimChars s.data))) =
    collapseGo false (trimChars s.data)
  set y := collapseGo false (trimChars s.data) with hy
  have htrim : trimChars y = y := by
    apply trimChars_eq_self
    · intro c hc
      cases ht : trimChars s.data with
      | nil => rw [hy, ht] at hc; simp [collapseGo] at hc
      | cons a r =>
        have ha : wsChar a = false := trimChars_head_not_ws s.data a r ht
        rw [hy, ht, collapseGo_cons_not_ws false a r ha] at hc
        simp at hc
        rw [← hc]
        exact ha
    · intro c hc
      cases ht : trimChars s.data with
      | nil => rw [hy, ht] at hc; simp [collapseGo] at hc
      | cons a r =>
        obtain ⟨d, hd⟩ : ∃ d, (a :: r).getLast? = some d := by
          cases hg : (a :: r).getLast? with
          | none => simp at hg
          | some d => exact ⟨d, rfl⟩
        have hdw : wsChar d = false := by
          apply trimChars_getLast_not_ws s.data
          rw [ht]; exact hd
        have := collapseGo_getLast (a :: r) d false hd hdw
        rw [hy, ht] at hc
        rw [this] at hc
        simp at hc
        rwa [← hc]
  rw [htrim]
  exact collapseGo_fixed y (hy ▸ collapseGo_chain (trimChars s.data) false)
    (fun c hc hw => collapseGo_ws_space (trimChars s.data) false c (hy ▸ hc) hw)

/-- `clean` is idempotent. -/
theorem clean_idem (s : String) : clean (clean s) = clean s := by
  unfold clean
  exact String.ext (by simpa using trimChars_idem s.data)

theorem clean_data (s : String) : (clean s).data = trimChars s.data := rfl

theorem clean_head_not_ws (s : String) (c : Char) (r : List Char)
    (h : (clean s).data = c :: r) : wsChar c = false :=
  trimChars_head_not_ws s.data c r h

theorem clean_getLast_not_ws (s : String) (c : Char)
    (h : (clean s).data.getLast? = some c) : wsChar c = false :=
  trimChars_getLast_not_ws s.data c h

theorem string_ne_empty_iff_data (s : String) : s ≠ "" ↔ s.data ≠ [] := by
  constructor
  · intro h hd; exact h (String.ext hd)
  · intro h hd; exact h (by rw [hd])

/-! ## C9: `appendPrompt` behaviour -/

theorem appendPrompt_of_base_empty (base tail : String) (hb : clean base = "") :
    appendPrompt base tail = clean tail := by
  simp [appendPrompt, hb]

theorem appendPrompt_of_tail_empty (base tail : String) (hb : clean base ≠ "")
    (ht : clean tail = "") : appendPrompt base tail = clean base := by
  simp [appendPrompt, hb, ht]

theorem appendPrompt_of_contained (base tail : String) (hb : clean base ≠ "")
    (ht : clean tail ≠ "")
    (hinc : jsIncludes (lowerStr (clean base)) (lowerStr (clean tail)) = true) :
    appendPrompt base tail = clean base := by
  simp [appendPrompt, hb, ht, hinc]

theorem appendPrompt_of_fresh (base tail : String) (hb : clean base ≠ "")
    (ht : clean tail ≠ "")
    (hinc : jsIncludes (lowerStr (clean base)) (lowerStr (clean tail)) = false) :
    appendPrompt base tail = clean base ++ ". " ++ clean tail := by
  simp [appendPrompt, hb, ht, hinc]

/-- The concatenation produced by `appendPrompt`'s final branch is already
trimmed, hence a fixed point of `clean`. -/
theorem clean_appendPrompt_concat (b t : String) (hb : clean b = b) (ht : clean t = t)
    (hbne : b ≠ "") (htne : t ≠ "") : clean (b ++ ". " ++ t) = b ++ ". " ++ t := by
  apply String.ext
  rw [clean_data]
  have hdata : (b ++ ". " ++ t).data = b.data ++ ". ".data ++ t.data := by
    rw [String.data_append, String.data_append]
  rw [hdata]
  apply trimChars_eq_self
  · intro c hc
    obtain ⟨x, xs, hx⟩ := List.exists_cons_of_ne_nil ((string_ne_empty_iff_data b).mp hbne)
    rw [hx] at hc
    simp at hc
    subst hc
    exact clean_head_not_ws b x xs (by rw [hb]; exact hx)
  · intro c hc
    obtain ⟨x, xs, hx⟩ := List.exists_cons_of_ne_nil ((string_ne_empty_iff_data t).mp htne)
    rw [List.getLast?_append, List.getLast?_append] at hc
    have htl : t.data.getLast? = some c := by
      rcases ho : t.data.getLast? with _ | d
      · rw [hx] at ho; simp at ho
      · rw [ho] at hc; simp at hc; rw [hc]
    refine clean_getLast_not_ws t c ?_
    rw [ht]; exact htl

theorem lowerStr_append (a b : String) :
    (lowerStr (a ++ b)).data = (lowerStr a).data ++ (lowerStr b).data := by
  simp [lowerStr, String.data_append]

/-- C9: `appendPrompt` is idempotent in its tail argument, and when the
trimmed base already contains the trimmed tail as a case-insensitive
substring it returns the trimmed base unchanged, so the style-lock clause is
never duplicated in a prompt. -/
theorem claim_C9_appendPrompt_idempotent (base tail : String) :
    appendPrompt (appendPrompt base tail) tail = appendPrompt base tail ∧
    (jsIncludes (lowerStr (clean base)) (lowerStr (clean tail)) = true →
      appendPrompt base tail = clean base) := by
  have hidem : ∀ s : String, clean (clean s) = clean s := clean_idem
  constructor
  · by_cases hb : clean base = ""
    · rw [appendPrompt_of_base_empty base tail hb]
      by_cases ht : clean tail = ""
      · exact appendPrompt_of_base_empty (clean tail) tail (by rw [hidem tail]; exact ht)
      · have step := appendPrompt_of_contained (clean tail) tail
          (by rw [hidem tail]; exact ht) ht
          (by rw [hidem tail]; simp [jsIncludes])
        exact step.trans (hidem tail)
    · by_cases ht : clean tail = ""
      · rw [appendPrompt_of_tail_empty base tail hb ht]
        exact (appendPrompt_of_tail_empty (clean base) tail
          (by rw [hidem base]; exact hb) ht).trans (hidem base)
      · by_cases hinc : jsIncludes (lowerStr (clean base)) (lowerStr (clean tail)) = true
        · rw [appendPrompt_of_contained base tail hb ht hinc]
          refine (appendPrompt_of_contained (clean base) tail
            (by rw [hidem base]; exact hb) ht ?_).trans (hidem base)
          rwa [hidem base]
        · have hinc' : jsIncludes (lowerStr (clean base)) (lowerStr (clean tail)) = false := by
            simpa using hinc
          rw [appendPrompt_of_fresh base tail hb ht hinc']
          set A := clean base ++ ". " ++ clean tail with hA
          have hclA : clean A = A :=
            clean_appendPrompt_concat (clean base) (clean tail) (hidem base) (hidem tail) hb ht
          have hAne : A ≠ "" := by
            rw [string_ne_empty_iff_data, hA, String.data_append, String.data_append]
            intro hcontra
            simp at hcontra
          have hAinc : jsIncludes (lowerStr (clean A)) (lowerStr (clean tail)) = true := by
            rw [hclA]
            simp only [jsIncludes, decide_eq_true_eq]
            rw [hA]
            have hsplit : (lowerStr (clean base ++ ". " ++ clean tail)).data =
                (lowerStr (clean base ++ ". ")).data ++ (lowerStr (clean tail)).data := by
              rw [← lowerStr_append]
            rw [hsplit]
            exact ⟨(lowerStr (clean base ++ ". ")).data, [], by simp⟩
          exact (appendPrompt_of_contained A tail (by rw [hclA]; exact hAne) ht hAinc).trans hclA
  · intro hinc
    by_cases hb : clean base = ""
    · rw [appendPrompt_of_base_empty base tail hb]
      rw [hb] at hinc
      simp only [jsIncludes, decide_eq_true_eq] at hinc
      have : (lowerStr (clean tail)).data = [] := by
        refine List.eq_nil_of_infix_nil ?_
        simpa [lowerStr] using hinc
      have ht : (clean tail).data = [] := by
        simpa [lowerStr] using this
      rw [hb]
      exact String.ext ht
    · by_cases ht : clean tail = ""
      · exact appendPrompt_of_tail_empty base tail hb ht
      · exact appendPrompt_of_contained base tail hb ht hinc


/-! ## C3 / C4: word-timeline lemmas -/

theorem wordWeight_ge_one (w : String) : 1 ≤ wordWeight w := by
  unfold wordWeight
  split_ifs <;> norm_num

theorem jsOrQ_wordWeight (w : String) : jsOrQ (wordWeight w) 1 = wordWeight w := by
  unfold jsOrQ
  rw [if_neg]
  have h1 := wordWeight_ge_one w
  intro h
  rw [h] at h1
  norm_num at h1

theorem sum_wordWeights_pos (ws : List String) (h : ws ≠ []) :
    0 < (ws.map wordWeight).sum := by
  cases ws with
  | nil => exact absurd rfl h
  | cons w rest =>
    have h1 : 1 ≤ wordWeight w := wordWeight_ge_one w
    have h2 : 0 ≤ (rest.map wordWeight).sum := by
      refine List.sum_nonneg ?_
      intro x hx
      obtain ⟨y, _, hy⟩ := List.mem_map.mp hx
      have h3 := wordWeight_ge_one y
      rw [hy] at h3
      linarith
    simp only [List.map_cons, List.sum_cons]
    linarith

theorem bwGo_length (W D fps : ℚ) (ws : List String) : ∀ t : ℚ,
    (bwGo W D fps ws t).length = ws.length := by
  induction ws with
  | nil => intro t; rfl
  | cons w rest ih => intro t; simp only [bwGo, List.length_cons, ih]

theorem getLastD_of_ne_nil (l : List WordEntry) (h : l ≠ []) (d1 d2 : WordEntry) :
    l.getLastD d1 = l.getLastD d2 := by
  obtain ⟨a, m, rfl⟩ := List.exists_cons_of_ne_nil h
  rw [List.getLastD_eq_getLast?, List.getLastD_eq_getLast?]
  cases hg : (a :: m).getLast? with
  | none => simp at hg
  | some x => rfl

/-- Adjacent word entries share their boundary frame exactly: the next
entry's `startFrame` rounds the same accumulated time as the current entry's
`endFrame`. -/
theorem bwGo_adjacent (W D fps : ℚ) (ws : List String) : ∀ (t : ℚ) (i : ℕ),
    i + 1 < (bwGo W D fps ws t).length →
    ((bwGo W D fps ws t).getD (i + 1) dfltEntry).startFrame =
      ((bwGo W D fps ws t).getD i dfltEntry).endFrame := by
  induction ws with
  | nil => intro t i h; simp [bwGo] at h
  | cons w rest ih =>
    intro t i h
    cases i with
    | zero =>
      have hrest : rest ≠ [] := by
        intro hr
        rw [hr] at h
        simp [bwGo] at h
      obtain ⟨w2, rest2, hr⟩ := List.exists_cons_of_ne_nil hrest
      subst hr
      simp [bwGo, List.getD]
    | succ j =>
      have h2 : j + 1 < (bwGo W D fps rest
          (t + if 0 < W then jsOrQ (wordWeight w) 1 / W * D else 0)).length := by
        simp only [bwGo, List.length_cons] at h
        omega
      have h3 := ih (t + if 0 < W then jsOrQ (wordWeight w) 1 / W * D else 0) j h2
      simpa [bwGo, List.getD] using h3

/-- The last entry ends at the rounding of the start time plus every word's
allocated duration. -/
theorem bwGo_last (W D fps : ℚ) (ws : List String) : ∀ t : ℚ, ws ≠ [] →
    ((bwGo W D fps ws t).getLastD dfltEntry).endFrame =
      jsRound ((t + (ws.map (fun w =>
        if 0 < W then jsOrQ (wordWeight w) 1 / W * D else 0)).sum) * fps) := by
  induction ws with
  | nil => intro t h; exact absurd rfl h
  | cons w rest ih =>
    intro t _
    cases rest with
    | nil =>
      simp [bwGo, List.getLastD]
    | cons w2 rest2 =>
      have hne : bwGo W D fps (w2 :: rest2)
          (t + if 0 < W then jsOrQ (wordWeight w) 1 / W * D else 0) ≠ [] := by
        intro hcontra
        have hl := bwGo_length W D fps (w2 :: rest2)
          (t + if 0 < W then jsOrQ (wordWeight w) 1 / W * D else 0)
        rw [hcontra] at hl
        simp at hl
      have step : (bwGo W D fps (w :: w2 :: rest2) t).getLastD dfltEntry =
          (bwGo W D fps (w2 :: rest2)
            (t + if 0 < W then jsOrQ (wordWeight w) 1 / W * D else 0)).getLastD dfltEntry := by
        conv in bwGo W D fps (w :: w2 :: rest2) t => rw [bwGo]
        rw [List.getLastD_cons]
        exact getLastD_of_ne_nil _ hne _ _
      rw [step, ih _ (by simp)]
      congr 1
      simp only [List.map_cons, List.sum_cons]
      ring

/-- With a non-empty word list, the per-word durations sum exactly to the
total target duration. -/
theorem durations_sum_eq (D : ℚ) (ws : List String) (h : ws ≠ []) :
    (ws.map (fun w =>
      if 0 < (ws.map wordWeight).sum
      then jsOrQ (wordWeight w) 1 / (ws.map wordWeight).sum * D else 0)).sum = D := by
  set W := (ws.map wordWeight).sum with hW
  have hWpos : 0 < W := sum_wordWeights_pos ws h
  have hmap : ws.map (fun w =>
      if 0 < W then jsOrQ (wordWeight w) 1 / W * D else 0) =
      ws.map (fun w => wordWeight w * (W⁻¹ * D)) := by
    refine List.map_congr_left ?_
    intro w _
    rw [if_pos hWpos, jsOrQ_wordWeight]
    field_simp
  rw [hmap, List.sum_map_mul_right, ← hW]
  field_simp

/-- C3: in every `buildWordTimeline` output from a non-empty word list, entry
`i+1` starts exactly where entry `i` ends (hence within the one-frame
tolerance), and the final entry ends exactly at
`round(totalDurationSec * fps)` (hence within the same tolerance). -/
theorem claim_C3_timeline_boundaries (scenes : List SceneData) (D fps : ℚ)
    (h : tokenizeScenes scenes ≠ []) :
    (∀ i : ℕ, i + 1 < (buildWordTimeline scenes D fps).length →
      |((buildWordTimeline scenes D fps).getD (i + 1) dfltEntry).startFrame -
        ((buildWordTimeline scenes D fps).getD i dfltEntry).endFrame| ≤ 1) ∧
    ((buildWordTimeline scenes D fps).getLastD dfltEntry).endFrame = jsRound (D * fps) ∧
    |((buildWordTimeline scenes D fps).getLastD dfltEntry).endFrame - jsRound (D * fps)| ≤ 1 := by
  have hbuild : buildWordTimeline scenes D fps =
      bwGo ((tokenizeScenes scenes).map wordWeight).sum D fps (tokenizeScenes scenes) 0 := by
    unfold buildWordTimeline
    rw [if_neg (by simpa using h)]
  have hlast : ((buildWordTimeline scenes D fps).getLastD dfltEntry).endFrame =
      jsRound (D * fps) := by
    rw [hbuild, bwGo_last _ D fps (tokenizeScenes scenes) 0 h]
    rw [durations_sum_eq D (tokenizeScenes scenes) h]
    norm_num
  refine ⟨?_, hlast, by rw [hlast]; simp⟩
  intro i hi
  rw [hbuild] at hi ⊢
  rw [bwGo_adjacent _ D fps (tokenizeScenes scenes) 0 i hi]
  simp

theorem wordWeight_eq_specWeight (w : String) : wordWeight w = specWeight w := by
  unfold wordWeight specWeight
  have hsoft : endsWithSoftPause w = specEndsIn [',', ';', ':'] w := by
    unfold endsWithSoftPause specEndsIn
    cases w.data.getLast? with
    | none => rfl
    | some c => simp [List.mem_cons, Bool.or_assoc]
  have hstrong : endsWithStrongPause w = specEndsIn ['.', '!', '?'] w := by
    unfold endsWithStrongPause specEndsIn
    cases w.data.getLast? with
    | none => rfl
    | some c => simp [List.mem_cons, Bool.or_assoc]
  have hiff : isLongWord w = true ↔
      9 ≤ (w.data.filter (fun c => c.isAlpha || c.isDigit)).length := by
    simp [isLongWord]
  rw [hsoft, hstrong]
  by_cases h9 : 9 ≤ (w.data.filter (fun c => c.isAlpha || c.isDigit)).length
  · rw [if_pos (hiff.mpr h9), if_pos h9]
  · rw [if_neg (fun hc => h9 (hiff.mp hc)), if_neg h9]

theorem wordWeight_plain (w : String) (hs : endsWithSoftPause w = false)
    (hst : endsWithStrongPause w = false) (hl : isLongWord w = false) :
    wordWeight w = 1 := by
  simp [wordWeight, hs, hst, hl]

theorem wordWeight_strong_short (w : String) (hs : endsWithSoftPause w = false)
    (hst : endsWithStrongPause w = true) (hl : isLongWord w = false) :
    wordWeight w = 1.8 := by
  simp [wordWeight, hs, hst, hl]
  norm_num

/-- C4: the weight of every narration token follows the documented formula
(1.0 base, +0.35 soft pause, +0.8 strong pause, +0.15 long word), and the
narration "Hello there. How are you?" yields the weights [1, 1.8, 1, 1, 1.8]. -/
theorem claim_C4_word_weights :
    (∀ scenes : List SceneData,
      (tokenizeScenes scenes).map wordWeight = (tokenizeScenes scenes).map specWeight) ∧
    (tokenizeScenes [⟨"Hello there. How are you?", "", "hook", 4, 0⟩]).map wordWeight =
      [1, 1.8, 1, 1, 1.8] := by
  constructor
  · intro scenes
    exact List.map_congr_left (fun w _ => wordWeight_eq_specWeight w)
  · have htok : tokenizeScenes [⟨"Hello there. How are you?", "", "hook", 4, 0⟩] =
        ["Hello", "there.", "How", "are", "you?"] := by decide
    rw [htok]
    simp only [List.map_cons, List.map_nil]
    rw [wordWeight_plain "Hello" (by decide) (by decide) (by decide),
        wordWeight_strong_short "there." (by decide) (by decide) (by decide),
        wordWeight_plain "How" (by decide) (by decide) (by decide),
        wordWeight_plain "are" (by decide) (by decide) (by decide),
        wordWeight_strong_short "you?" (by decide) (by decide) (by decide)]

/-- Witness for C3 at the example narration, 4 seconds, 30 fps. -/
theorem claim_C3_witness :
    tokenizeScenes [⟨"Hello there. How are you?", "", "hook", 4, 0⟩] ≠ [] ∧
    ((∀ i : ℕ,
        i + 1 < (buildWordTimeline [⟨"Hello there. How are you?", "", "hook", 4, 0⟩] 4 30).length →
        |((buildWordTimeline [⟨"Hello there. How are you?", "", "hook", 4, 0⟩] 4 30).getD (i + 1)
            dfltEntry).startFrame -
          ((buildWordTimeline [⟨"Hello there. How are you?", "", "hook", 4, 0⟩] 4 30).getD i
            dfltEntry).endFrame| ≤ 1) ∧
      ((buildWordTimeline [⟨"Hello there. How are you?", "", "hook", 4, 0⟩] 4 30).getLastD
          dfltEntry).endFrame = jsRound (4 * 30) ∧
      |((buildWordTimeline [⟨"Hello there. How are you?", "", "hook", 4, 0⟩] 4 30).getLastD
          dfltEntry).endFrame - jsRound (4 * 30)| ≤ 1) :=
  ⟨by decide,
   claim_C3_timeline_boundaries [⟨"Hello there. How are you?", "", "hook", 4, 0⟩] 4 30 (by decide)⟩

/-- Witness for C9: idempotence at a concrete prompt, and the contained case
exercised with a case-insensitive containment. -/
theorem claim_C9_witness :
    appendPrompt (appendPrompt "A park scene" "Vertical 9:16. No text.") "Vertical 9:16. No text." =
      appendPrompt "A park scene" "Vertical 9:16. No text." ∧
    jsIncludes (lowerStr (clean "Show the LOGO clearly")) (lowerStr (clean "logo")) = true ∧
    appendPrompt "Show the LOGO clearly" "logo" = clean "Show the LOGO clearly" :=
  ⟨(claim_C9_appendPrompt_idempotent "A park scene" "Vertical 9:16. No text.").1,
   by decide,
   (claim_C9_appendPrompt_idempotent "Show the LOGO clearly" "logo").2 (by decide)⟩


/-! ## C5: caption-group lemmas -/

theorem flushGroup_ok (mW mC : ℤ) (cur : List WordEntry) (groups : List CaptionGroup)
    (hg : ∀ g ∈ groups, GroupOk mW mC g) (hc : CurOk mW mC cur) :
    ∀ g ∈ flushGroup cur groups, GroupOk mW mC g := by
  intro g hgmem
  unfold flushGroup at hgmem
  by_cases he : cur.isEmpty
  · rw [if_pos he] at hgmem; exact hg g hgmem
  · rw [if_neg he] at hgmem
    rcases List.mem_append.mp hgmem with h1 | h2
    · exact hg g h1
    · simp at h2
      subst h2
      exact ⟨by simpa [List.isEmpty_iff] using he, hc.2.1, hc.2.2⟩

theorem flushGroup_flatten (cur : List WordEntry) (groups : List CaptionGroup) :
    ((flushGroup cur groups).map (fun g => g.words)).flatten =
      ((groups.map (fun g => g.words)).flatten) ++ cur := by
  unfold flushGroup
  by_cases he : cur.isEmpty
  · rw [if_pos he]
    have hnil : cur = [] := List.isEmpty_iff.mp he
    simp [hnil]
  · rw [if_neg he]
    simp

theorem bcgCur1_ok (mW mC : ℤ) (hmW : 1 ≤ mW) (cur : List WordEntry) (e : WordEntry)
    (hc : CurOk mW mC cur) : CurOk mW mC (bcgCur1 mW mC cur e) := by
  unfold bcgCur1
  by_cases hd : bcgDoFlush mW mC cur e = true
  · rw [if_pos hd]
    refine ⟨?_, by simpa using hmW, by intro h2; simp at h2⟩
    intro x hx
    simp at hx
    subst hx
    exact normalizeWord_idem e.word
  · rw [if_neg hd]
    have hd2 : bcgDoFlush mW mC cur e = false := by simpa using hd
    simp only [bcgDoFlush, Bool.and_eq_false_iff, Bool.not_eq_false', Bool.or_eq_false_iff,
      decide_eq_false_iff_not, not_lt] at hd2
    have hfix : NormFixed (cur ++ [normEntry e]) := by
      intro x hx
      rcases List.mem_append.mp hx with h1 | h2
      · exact hc.1 x h1
      · simp at h2
        subst h2
        exact normalizeWord_idem e.word
    rcases hd2 with hempty | ⟨hwords, hchars⟩
    · have hnil : cur = [] := List.isEmpty_iff.mp hempty
      subst hnil
      exact ⟨hfix, by simpa using hmW, by intro h2; simp at h2⟩
    · refine ⟨hfix, ?_, ?_⟩
      · simp only [List.length_append, List.length_cons, List.length_nil]
        push_cast
        omega
      · intro _
        have hmapeq : cur.map (fun w => normalizeWord w.word) = cur.map (fun w => w.word) :=
          List.map_congr_left (fun w hw => hc.1 w hw)
        have hrw : (cur ++ [normEntry e]).map (fun x => x.word) =
            (cur.map (fun w => normalizeWord w.word)) ++ [normalizeWord e.word] := by
          rw [hmapeq]
          simp [normEntry]
        rw [hrw]
        exact hchars

theorem bcgGroups1_ok (mW mC : ℤ) (groups : List CaptionGroup) (cur : List WordEntry)
    (e : WordEntry) (hg : ∀ g ∈ groups, GroupOk mW mC g) (hc : CurOk mW mC cur) :
    ∀ g ∈ bcgGroups1 mW mC groups cur e, GroupOk mW mC g := by
  unfold bcgGroups1
  by_cases hd : bcgDoFlush mW mC cur e = true
  · rw [if_pos hd]; exact flushGroup_ok mW mC cur groups hg hc
  · rw [if_neg hd]; exact hg

theorem bcgStep_flatten (mW mC : ℤ) (groups : List CaptionGroup) (cur : List WordEntry)
    (e : WordEntry) :
    ((bcgGroups1 mW mC groups cur e).map (fun g => g.words)).flatten ++ bcgCur1 mW mC cur e =
      ((groups.map (fun g => g.words)).flatten) ++ cur ++ [normEntry e] := by
  unfold bcgGroups1 bcgCur1
  by_cases hd : bcgDoFlush mW mC cur e = true
  · rw [if_pos hd, if_pos hd, flushGroup_flatten]
    simp
  · rw [if_neg hd, if_neg hd]
    simp

/-- The loop invariant of `buildCaptionGroups`: all emitted groups satisfy
`GroupOk`, and the flattened output extends the processed prefix with each
word normalized. -/
theorem bcgGo_spec (mW mC : ℤ) (hmW : 1 ≤ mW) (rest : List WordEntry) :
    ∀ (groups : List CaptionGroup) (cur : List WordEntry),
      (∀ g ∈ groups, GroupOk mW mC g) → CurOk mW mC cur →
      (∀ g ∈ bcgGo mW mC groups cur rest, GroupOk mW mC g) ∧
      ((bcgGo mW mC groups cur rest).map (fun g => g.words)).flatten =
        ((groups.map (fun g => g.words)).flatten) ++ cur ++ rest.map normEntry := by
  induction rest with
  | nil =>
    intro groups cur hg hc
    constructor
    · intro g hmem
      exact flushGroup_ok mW mC cur groups hg hc g (by simpa [bcgGo] using hmem)
    · simp only [bcgGo, List.map_nil, List.append_nil]
      exact flushGroup_flatten cur groups
  | cons e rest ih =>
    intro groups cur hg hc
    have hg1 := bcgGroups1_ok mW mC groups cur e hg hc
    have hc1 := bcgCur1_ok mW mC hmW cur e hc
    have hflat1 := bcgStep_flatten mW mC groups cur e
    have hcurEmptyOk : CurOk mW mC ([] : List WordEntry) :=
      ⟨by intro x hx; simp at hx, by simpa using le_trans zero_le_one hmW,
       by intro h2; simp at h2⟩
    simp only [bcgGo]
    split_ifs with h1 h2
    · obtain ⟨ha, hb⟩ := ih (flushGroup (bcgCur1 mW mC cur e) (bcgGroups1 mW mC groups cur e))
        [] (flushGroup_ok mW mC _ _ hg1 hc1) hcurEmptyOk
      refine ⟨ha, ?_⟩
      rw [hb, flushGroup_flatten, hflat1]
      simp
    · obtain ⟨ha, hb⟩ := ih (flushGroup (bcgCur1 mW mC cur e) (bcgGroups1 mW mC groups cur e))
        [] (flushGroup_ok mW mC _ _ hg1 hc1) hcurEmptyOk
      refine ⟨ha, ?_⟩
      rw [hb, flushGroup_flatten, hflat1]
      simp
    · obtain ⟨ha, hb⟩ := ih (bcgGroups1 mW mC groups cur e) (bcgCur1 mW mC cur e) hg1 hc1
      refine ⟨ha, ?_⟩
      rw [hb, hflat1]
      simp

/-- C5 (amended): every caption group is non-empty with word count at most
the clamped `maxWords`; every group holding at least two words fits the
clamped `maxChars` (a single oversized word may exceed it, final group or
not); and concatenating the groups' words in order reproduces the timeline
with each word whitespace-normalized. -/
theorem claim_C5_caption_groups (timeline : List WordEntry) (maxWords maxChars : ℤ) :
    (∀ g ∈ buildCaptionGroups timeline maxWords maxChars,
      GroupOk (max 1 maxWords) (max 10 maxChars) g) ∧
    ((buildCaptionGroups timeline maxWords maxChars).map (fun g => g.words)).flatten =
      timeline.map normEntry := by
  have h := bcgGo_spec (max 1 maxWords) (max 10 maxChars) (le_max_left 1 maxWords) timeline [] []
    (by intro g hgmem; simp at hgmem)
    ⟨by intro x hx; simp at hx,
     by simpa using le_trans zero_le_one (le_max_left 1 maxWords),
     by intro h2; simp at h2⟩
  unfold buildCaptionGroups
  exact ⟨h.1, by simpa using h.2⟩

/-- C5 counterexample: with the source's own limits (6 words, 28 chars), a
single 30-character word forms a group that precedes another group yet
exceeds the character limit, so the character bound does not hold for all
non-final groups as the claim states. -/
theorem claim_C5_counterexample :
    (buildCaptionGroups [⟨"abcdefghijklmnopqrstuvwxyzabcd", 0, 10⟩, ⟨"ok", 10, 20⟩] 6 28).length = 2 ∧
    28 < estimateLineLen
      (((buildCaptionGroups [⟨"abcdefghijklmnopqrstuvwxyzabcd", 0, 10⟩, ⟨"ok", 10, 20⟩] 6 28).getD 0
        ⟨[], 0, 0⟩).words.map (fun e => e.word)) := by
  constructor
  · decide
  · decide


/-! ## C6 / C7: orchestrator timeline arithmetic -/

/-- C6: the authoritative timeline length is the positive scene-duration sum
when that sum is positive, else the positive audio duration, else five
seconds per clip; talking-head mode floors it at 30 s; and whenever a
measured audio duration is available the subtitle duration is the minimum of
audio duration and timeline length, so captions never extend past the audio. -/
theorem claim_C6_timeline (durations : List ℚ) (audioDuration : ℚ) (numClips : ℕ)
    (talkingHeadMode : Bool) :
    (talkingHeadMode = false →
      computeTimelineSeconds durations audioDuration numClips false =
        (if 0 < sceneTimelineSeconds durations then sceneTimelineSeconds durations
         else if 0 < audioDuration then audioDuration else (numClips : ℚ) * 5)) ∧
    (computeTimelineSeconds durations audioDuration numClips true =
      max 30 (computeTimelineSeconds durations audioDuration numClips false)) ∧
    (0 < audioDuration →
      computeSubtitlesSeconds audioDuration
          (computeTimelineSeconds durations audioDuration numClips talkingHeadMode) =
        min audioDuration
          (computeTimelineSeconds durations audioDuration numClips talkingHeadMode) ∧
      computeSubtitlesSeconds audioDuration
          (computeTimelineSeconds durations audioDuration numClips talkingHeadMode) ≤
        audioDuration) := by
  refine ⟨fun _ => ?_, ?_, fun hpos => ⟨?_, ?_⟩⟩
  · simp [computeTimelineSeconds]
  · simp [computeTimelineSeconds]
  · simp [computeSubtitlesSeconds, hpos]
  · simp [computeSubtitlesSeconds, hpos]

/-- Witness for C6 with two 15-second scenes, 28 s of audio, two clips. -/
theorem claim_C6_witness :
    ((false = false →
      computeTimelineSeconds [15, 15] 28 2 false =
        (if 0 < sceneTimelineSeconds [15, 15] then sceneTimelineSeconds [15, 15]
         else if 0 < (28 : ℚ) then 28 else ((2 : ℕ) : ℚ) * 5)) ∧
    (computeTimelineSeconds [15, 15] 28 2 true =
      max 30 (computeTimelineSeconds [15, 15] 28 2 false)) ∧
    ((0 : ℚ) < 28 →
      computeSubtitlesSeconds 28 (computeTimelineSeconds [15, 15] 28 2 false) =
        min 28 (computeTimelineSeconds [15, 15] 28 2 false) ∧
      computeSubtitlesSeconds 28 (computeTimelineSeconds [15, 15] 28 2 false) ≤ 28)) ∧
    (0 : ℚ) < 28 :=
  ⟨claim_C6_timeline [15, 15] 28 2 false, by decide⟩

theorem sceneBasedDuration_pos (durations : List ℚ) (h : durations ≠ []) :
    0 < sceneBasedDuration durations := by
  cases durations with
  | nil => exact absurd rfl h
  | cons d rest =>
    have h1 : 0 < (if 0 < d then d else 5) := by
      split_ifs with hd
      · exact hd
      · norm_num
    have h2 : 0 ≤ (rest.map (fun d => if 0 < d then d else 5)).sum := by
      refine List.sum_nonneg ?_
      intro x hx
      obtain ⟨y, _, hy⟩ := List.mem_map.mp hx
      rw [← hy]
      split_ifs with hyp
      · linarith
      · norm_num
    unfold sceneBasedDuration
    simp only [List.map_cons, List.sum_cons]
    linarith

/-- C7 counterexample: with no scenes and two resolved clips, the code
derives 10 s (five per clip), while the claim's formula (the defaulted
scene-duration sum floored at 6 s) gives 6 s. -/
theorem claim_C7_counterexample :
    syntheticAudioDuration [] 2 = 10 ∧ specSyntheticDuration [] = 6 ∧
    syntheticAudioDuration [] 2 ≠ specSyntheticDuration [] := by
  have h1 : syntheticAudioDuration [] 2 = 10 := by
    have hstep : syntheticAudioDuration [] 2 = max 6 (((2 : ℕ) : ℚ) * 5) := by
      unfold syntheticAudioDuration sceneBasedDuration jsOrQ
      norm_num
    rw [hstep, max_eq_right (by norm_num : (6 : ℚ) ≤ ((2 : ℕ) : ℚ) * 5)]
    norm_num
  have h2 : specSyntheticDuration [] = 6 := by
    unfold specSyntheticDuration
    simp only [List.map_nil, List.sum_nil]
    rw [max_eq_left (by norm_num : (0 : ℚ) ≤ 6)]
  refine ⟨h1, h2, ?_⟩
  rw [h1, h2]
  norm_num

/-- C7 (amended): with no audio source, the synthetic timeline duration is
the defaulted scene-duration sum floored at 6 s whenever at least one scene
exists; with an empty scene list it instead falls back to five seconds per
resolved clip (or 15 s with no clips), floored at 6 s. -/
theorem claim_C7_synthetic_duration (durations : List ℚ) (numClips : ℕ) :
    syntheticAudioDuration durations numClips =
      if durations ≠ [] then specSyntheticDuration durations
      else if numClips ≠ 0 then max 6 ((numClips : ℚ) * 5)
      else 15 := by
  by_cases hd : durations = []
  · subst hd
    have hsb : sceneBasedDuration ([] : List ℚ) = 0 := by
      simp [sceneBasedDuration]
    by_cases hn : numClips = 0
    · subst hn
      have hstep : syntheticAudioDuration ([] : List ℚ) 0 = max 6 15 := by
        unfold syntheticAudioDuration jsOrQ
        rw [hsb]
        norm_num
      rw [hstep, max_eq_right (by norm_num : (6 : ℚ) ≤ 15)]
      simp
    · have hcast : (0 : ℚ) < (numClips : ℚ) := by
        exact_mod_cast Nat.pos_of_ne_zero hn
      have hstep : syntheticAudioDuration ([] : List ℚ) numClips =
          max 6 ((numClips : ℚ) * 5) := by
        unfold syntheticAudioDuration jsOrQ
        rw [hsb]
        rw [if_pos (by norm_num : (0 : ℚ) = 0),
            if_neg (by positivity : ¬((numClips : ℚ) * 5 = 0))]
      rw [hstep]
      simp [hn]
  · have hpos : 0 < sceneBasedDuration durations := sceneBasedDuration_pos durations hd
    have hstep : syntheticAudioDuration durations numClips =
        max 6 (sceneBasedDuration durations) := by
      unfold syntheticAudioDuration jsOrQ
      rw [if_neg (by linarith : ¬sceneBasedDuration durations = 0)]
    rw [hstep, if_pos hd]
    rfl


/-! ## C8: image-provider fallback -/

/-- C8: when the primary image provider fails with an access-denied /
not-entitled error (a message carrying the HTTP 401/403 status or the
"Cannot access application" text, case-insensitively), the scene is retried
on the secondary provider and the result is whatever the secondary returns;
any other primary failure is immediately fatal for the scene, the secondary
never being consulted (the result equals the primary error for every
possible secondary outcome). -/
theorem claim_C8_provider_fallback (msg : String) (fallbackOutcome : Except String String) :
    ((jsIncludes msg "401" = true ∨ jsIncludes msg "403" = true ∨
        jsIncludes (lowerStr msg) "cannot access application" = true) ↔
      isNanoFallbackEligible msg = true) ∧
    (isNanoFallbackEligible msg = true →
      generateSceneImage
          (fun l => if l = nanoProLabel then Except.error msg else fallbackOutcome) =
        fallbackOutcome) ∧
    (isNanoFallbackEligible msg = false →
      generateSceneImage
          (fun l => if l = nanoProLabel then Except.error msg else fallbackOutcome) =
        Except.error msg) := by
  refine ⟨?_, ?_, ?_⟩
  · simp only [isNanoFallbackEligible, Bool.or_eq_true]
    tauto
  · intro h
    cases fallbackOutcome with
    | ok url => simp [generateSceneImage, providerLoop, nanoModelLabels, nanoProLabel, h]
    | error m2 => simp [generateSceneImage, providerLoop, nanoModelLabels, nanoProLabel, h]
  · intro h
    simp [generateSceneImage, providerLoop, nanoModelLabels, nanoProLabel, h]

/-- Witness for C8: a 403 "Cannot access application" falls through to the
secondary provider and succeeds; a 500 error is fatal immediately. -/
theorem claim_C8_witness :
    isNanoFallbackEligible "fal POST failed (403): Cannot access application" = true ∧
    generateSceneImage (fun l =>
        if l = nanoProLabel then Except.error "fal POST failed (403): Cannot access application"
        else Except.ok "https://fal.media/files/img.png") =
      Except.ok "https://fal.media/files/img.png" ∧
    isNanoFallbackEligible "fal POST failed (500): upstream exploded" = false ∧
    generateSceneImage (fun l =>
        if l = nanoProLabel then Except.error "fal POST failed (500): upstream exploded"
        else Except.ok "https://fal.media/files/img.png") =
      Except.error "fal POST failed (500): upstream exploded" :=
  ⟨by decide,
   (claim_C8_provider_fallback "fal POST failed (403): Cannot access application"
     (Except.ok "https://fal.media/files/img.png")).2.1 (by decide),
   by decide,
   (claim_C8_provider_fallback "fal POST failed (500): upstream exploded"
     (Except.ok "https://fal.media/files/img.png")).2.2 (by decide)⟩

/-! ## C2: terminal poll status is swallowed, not raised -/

/-- C2 (code bug): when the status endpoint reports the terminal status
FAILED, the `throw` inside the status `try` block is caught by that block's
own `catch`, which merely logs a warning. The cycle does skip the result
endpoint (first component `false`), but no fatal error is raised for the
job: a job whose status stays FAILED keeps polling and fails only with the
deadline timeout error, not a status error. -/
theorem claim_C2_terminal_status_swallowed :
    extractStatus ⟨"FAILED", "", ""⟩ ∈ terminalStatuses ∧
    clipPollIteration ⟨true, Except.ok ⟨"FAILED", "", ""⟩, true, Except.ok "", ""⟩ =
      (false, PollOutcome.continuePolling) ∧
    resolveFalClipUrlLoop "req-1"
        (List.replicate 3 ⟨true, Except.ok ⟨"FAILED", "", ""⟩, true, Except.ok "", ""⟩) =
      Except.error "Timed out waiting for fal clip (requestId=req-1)" := by
  refine ⟨by decide, by decide, ?_⟩
  rfl

/-! ## C10: talking-head detection and scene rewrite -/

/-- C10: for a non-empty scene list, any of the triggers — `videoMode`
"talking_head", target duration at least 30 s, the
`renderConfig.talkingHeadSingleImage` flag, or exactly one scene — makes
`isTalkingHeadInput` true, and `main` then replaces the scene list with
exactly one scene of type "hook", index 0 and duration 30 that keeps the
remaining fields of the original first scene, even when the job had several
scenes. -/
theorem claim_C10_talking_head (input : RenderInputM) (s0 : SceneR) (rest : List SceneR)
    (hscenes : input.scenes = s0 :: rest)
    (htrigger : input.videoMode = "talking_head" ∨ (30 : ℚ) ≤ input.targetDurationSec ∨
      input.talkingHeadSingleImage = true ∨ input.scenes.length = 1) :
    isTalkingHeadInput input input.scenes = true ∧
    applyTalkingHeadRewrite input =
      [{ s0 with type := "hook", index := 0, duration := 30 }] := by
  have hb : isTalkingHeadInput input input.scenes = true := by
    unfold isTalkingHeadInput
    rcases htrigger with h | h | h | h
    · rw [h]
      have hmode : lowerStr (clean "talking_head") = "talking_head" := by decide
      rw [hmode]
      simp
    · simp [decide_eq_true h]
    · simp [h]
    · simp [h]
  refine ⟨hb, ?_⟩
  unfold applyTalkingHeadRewrite
  rw [hb, hscenes]
  simp

/-- Witness for C10: a two-scene job with `videoMode = "talking_head"`
collapses to a single 30-second hook scene built from the first scene. -/
theorem claim_C10_witness :
    isTalkingHeadInput
        ⟨"talking_head", 0, false,
          [⟨"intro", "vp", "scene", 10, 5, "vpp", "sip"⟩, ⟨"more", "vp2", "cta", 8, 1, "", ""⟩]⟩
        [⟨"intro", "vp", "scene", 10, 5, "vpp", "sip"⟩, ⟨"more", "vp2", "cta", 8, 1, "", ""⟩] =
      true ∧
    applyTalkingHeadRewrite
        ⟨"talking_head", 0, false,
          [⟨"intro", "vp", "scene", 10, 5, "vpp", "sip"⟩, ⟨"more", "vp2", "cta", 8, 1, "", ""⟩]⟩ =
      [⟨"intro", "vp", "hook", 30, 0, "vpp", "sip"⟩] :=
  claim_C10_talking_head
    ⟨"talking_head", 0, false,
      [⟨"intro", "vp", "scene", 10, 5, "vpp", "sip"⟩, ⟨"more", "vp2", "cta", 8, 1, "", ""⟩]⟩
    ⟨"intro", "vp", "scene", 10, 5, "vpp", "sip"⟩ [⟨"more", "vp2", "cta", 8, 1, "", ""⟩]
    rfl (Or.inl rfl)

/-! ## C1: bounded-concurrency executor -/

theorem initState_inv (resolve : ℕ → String) (C N : ℕ) :
    ExecInv resolve C N (initState C N) := by
  refine ⟨by simp [initState], by simp [initState], ?_, ?_, ?_, ?_⟩
  · intro i v h
    simp only [initState, List.getElem?_replicate] at h
    split_ifs at h <;> simp at h
  · intro k i h
    simp only [initState, List.getElem?_replicate] at h
    split_ifs at h <;> simp at h
  · intro j hj _
    simp [initState] at hj
  · intro hfin
    obtain ⟨k, hk⟩ := hfin
    simp only [initState, List.getElem?_replicate] at hk
    split_ifs at hk <;> simp at hk

theorem step_inv (resolve : ℕ → String) (C N : ℕ) (s s2 : ExecState)
    (hinv : ExecInv resolve C N s) (hstep : Step resolve N s s2) :
    ExecInv resolve C N s2 := by
  obtain ⟨hrlen, hwlen, hres, hbusy, hcover, hfin⟩ := hinv
  cases hstep with
  | grab k hk =>
    have hklt : k < s.workers.length := (List.getElem?_eq_some_iff.mp hk).choose
    refine ⟨hrlen, by simpa using hwlen, hres, ?_, ?_, ?_⟩
    · intro k2 i h
      by_cases hkk : k2 = k
      · subst hkk
        rw [List.getElem?_set_self hklt] at h
        by_cases hcN : s.cursor < N
        · rw [if_pos hcN] at h
          simp at h
          subst h
          exact ⟨Nat.lt_succ_self _, hcN⟩
        · rw [if_neg hcN] at h
          simp at h
      · rw [List.getElem?_set_ne (fun hh => hkk hh.symm)] at h
        obtain ⟨h1, h2⟩ := hbusy k2 i h
        exact ⟨Nat.lt_succ_of_lt h1, h2⟩
    · intro j hj hjN
      dsimp only at hj
      by_cases hjc : j = s.cursor
      · subst hjc
        right
        refine ⟨k, ?_⟩
        rw [List.getElem?_set_self hklt, if_pos hjN]
      · have hj2 : j < s.cursor := by omega
        rcases hcover j hj2 hjN with h1 | ⟨k2, h2⟩
        · exact Or.inl h1
        · right
          refine ⟨k2, ?_⟩
          have hkk : k2 ≠ k := by
            intro hh
            subst hh
            rw [h2] at hk
            simp at hk
          rw [List.getElem?_set_ne (fun hh => hkk hh.symm)]
          exact h2
    · intro hex
      obtain ⟨k2, hk2⟩ := hex
      by_cases hkk : k2 = k
      · subst hkk
        rw [List.getElem?_set_self hklt] at hk2
        by_cases hcN : s.cursor < N
        · rw [if_pos hcN] at hk2; simp at hk2
        · dsimp only
          omega
      · rw [List.getElem?_set_ne (fun hh => hkk hh.symm)] at hk2
        exact Nat.le_succ_of_le (hfin ⟨k2, hk2⟩)
  | complete k i hk =>
    have hklt : k < s.workers.length := (List.getElem?_eq_some_iff.mp hk).choose
    obtain ⟨hic, hiN⟩ := hbusy k i hk
    have hirlt : i < s.results.length := by omega
    refine ⟨by simpa using hrlen, by simpa using hwlen, ?_, ?_, ?_, ?_⟩
    · intro j v h
      by_cases hji : j = i
      · subst hji
        rw [List.getElem?_set_self hirlt] at h
        simp at h
        exact h.symm
      · rw [List.getElem?_set_ne (fun hh => hji hh.symm)] at h
        exact hres j v h
    · intro k2 j h
      by_cases hkk : k2 = k
      · subst hkk
        rw [List.getElem?_set_self hklt] at h
        simp at h
      · rw [List.getElem?_set_ne (fun hh => hkk hh.symm)] at h
        exact hbusy k2 j h
    · intro j hj hjN
      by_cases hji : j = i
      · subst hji
        left
        rw [List.getElem?_set_self hirlt]
      · rcases hcover j hj hjN with h1 | ⟨k2, h2⟩
        · left
          rw [List.getElem?_set_ne (fun hh => hji hh.symm)]
          exact h1
        · right
          have hkk : k2 ≠ k := by
            intro hh
            subst hh
            rw [h2] at hk
            simp at hk
            omega
          refine ⟨k2, ?_⟩
          rw [List.getElem?_set_ne (fun hh => hkk hh.symm)]
          exact h2
    · intro hex
      obtain ⟨k2, hk2⟩ := hex
      by_cases hkk : k2 = k
      · subst hkk
        rw [List.getElem?_set_self hklt] at hk2
        simp at hk2
      · rw [List.getElem?_set_ne (fun hh => hkk hh.symm)] at hk2
        exact hfin ⟨k2, hk2⟩

theorem reachable_inv (resolve : ℕ → String) (C N : ℕ) (s : ExecState)
    (h : Reachable resolve C N s) : ExecInv resolve C N s := by
  induction h with
  | refl => exact initState_inv resolve C N
  | tail hr hstep ih => exact step_inv resolve C N _ _ ih hstep

theorem filterMap_id_map_some (f : ℕ → String) (l : List ℕ) :
    ((l.map (fun i => some (f i))).filterMap id) = l.map f := by
  induction l with
  | nil => rfl
  | cons a l ih => simp [List.filterMap_cons, ih]

/-- In a terminal reachable state every slot holds its request's URL, in
order. -/
theorem terminal_results (resolve : ℕ → String) (C N : ℕ) (hC : 0 < C) (hN : 0 < N)
    (s : ExecState) (hinv : ExecInv resolve C N s) (hterm : TerminalExec s) :
    s.results = (List.range N).map (fun i => some (resolve i)) := by
  obtain ⟨hrlen, hwlen, hres, hbusy, hcover, hfin⟩ := hinv
  have hwne : s.workers ≠ [] := by
    intro hw
    rw [hw] at hwlen
    simp at hwlen
    omega
  obtain ⟨w0, ws, hw⟩ := List.exists_cons_of_ne_nil hwne
  have hw0fin : w0 = WorkerSt.finished := hterm w0 (by rw [hw]; simp)
  have hNc : N ≤ s.cursor := by
    refine hfin ⟨0, ?_⟩
    rw [hw, hw0fin]
    simp
  have hall : ∀ j, j < N → s.results[j]? = some (some (resolve j)) := by
    intro j hjN
    rcases hcover j (by omega) hjN with h1 | ⟨k, hk⟩
    · exact h1
    · exfalso
      have hmem : WorkerSt.busy j ∈ s.workers := by
        obtain ⟨hlt, hval⟩ := List.getElem?_eq_some_iff.mp hk
        rw [← hval]
        exact List.getElem_mem hlt
      have hcontra := hterm _ hmem
      simp at hcontra
  refine List.ext_getElem? ?_
  intro n
  by_cases hn : n < N
  · rw [hall n hn, List.getElem?_map, List.getElem?_range hn]
    rfl
  · rw [List.getElem?_eq_none (by omega), List.getElem?_eq_none]
    simp [Nat.not_lt.mp hn]

/-- C1: under any completion-order interleaving of the shared-cursor worker
pool, at most `C` requests are being resolved at once, and when every
request resolves to a valid artifact URL within the deadline the terminal
state makes `resolveClipUrlsFromFal` return exactly the `N` URLs in original
request order (element `i` is request `i`'s URL). -/
theorem claim_C1_executor (resolve : ℕ → String) (C N : ℕ) (hC : 0 < C) (hN : 0 < N)
    (hvalid : ∀ i, i < N → looksLikeVideoUrl (resolve i) = true)
    (s : ExecState) (hreach : Reachable resolve C N s) :
    busyCount s ≤ C ∧
    (TerminalExec s →
      finalOutput N s.results = Except.ok ((List.range N).map resolve) ∧
      ((List.range N).map resolve).length = N ∧
      ∀ i, i < N → ((List.range N).map resolve).getD i "" = resolve i) := by
  have hinv := reachable_inv resolve C N s hreach
  constructor
  · calc busyCount s ≤ s.workers.length := List.length_filter_le isBusyW s.workers
      _ = min C N := hinv.2.1
      _ ≤ C := Nat.min_le_left C N
  · intro hterm
    have hres := terminal_results resolve C N hC hN s hinv hterm
    have hfm : s.results.filterMap id = (List.range N).map resolve := by
      rw [hres]
      exact filterMap_id_map_some resolve (List.range N)
    have hfilter : ((List.range N).map resolve).filter looksLikeVideoUrl =
        (List.range N).map resolve := by
      refine List.filter_eq_self.mpr ?_
      intro a ha
      obtain ⟨i, hi, hia⟩ := List.mem_map.mp ha
      rw [← hia]
      exact hvalid i (List.mem_range.mp hi)
    refine ⟨?_, by simp, ?_⟩
    · unfold finalOutput
      rw [hfm, hfilter]
      rw [if_pos (by simp)]
    · intro i hi
      rw [List.getD_eq_getElem?_getD, List.getElem?_map, List.getElem?_range hi]
      rfl

/-- Witness for C1: three workers over one request; the explicit run
grab/complete/grab reaches the terminal state and yields the single URL. -/
theorem claim_C1_witness :
    busyCount ⟨2, [WorkerSt.finished], [some "https://x.test/v.mp4"]⟩ ≤ 3 ∧
    finalOutput 1 [some "https://x.test/v.mp4"] =
      Except.ok ((List.range 1).map (fun _ : ℕ => "https://x.test/v.mp4")) := by
  have hreach : Reachable (fun _ : ℕ => "https://x.test/v.mp4") 3 1
      ⟨2, [WorkerSt.finished], [some "https://x.test/v.mp4"]⟩ :=
    Relation.ReflTransGen.tail
      (Relation.ReflTransGen.tail
        (Relation.ReflTransGen.tail Relation.ReflTransGen.refl
          (@Step.grab (fun _ : ℕ => "https://x.test/v.mp4") 1 (initState 3 1) 0 (by decide)))
        (@Step.complete (fun _ : ℕ => "https://x.test/v.mp4") 1
          ⟨1, [WorkerSt.busy 0], [none]⟩ 0 0 (by decide)))
      (@Step.grab (fun _ : ℕ => "https://x.test/v.mp4") 1
        ⟨1, [WorkerSt.free], [some "https://x.test/v.mp4"]⟩ 0 (by decide))
  have h := claim_C1_executor (fun _ : ℕ => "https://x.test/v.mp4") 3 1 (by decide) (by decide)
    (fun i _ => (by decide : looksLikeVideoUrl "https://x.test/v.mp4" = true))
    ⟨2, [WorkerSt.finished], [some "https://x.test/v.mp4"]⟩ hreach
  exact ⟨h.1, (h.2 (by intro w hw; simpa using hw)).1⟩

end Dignitate
